import Mathlib

/-!
Verification of the `gencase` mesh generator (`src/gencase.py`).

The Python program is embedded shallowly:

* Python floats are exact rationals, so coordinates are modelled by an
  arbitrary linear ordered field with a floor (`ℚ` for the executable
  claims, `ℝ` for the trigonometric geometry).
* `Decimal(value).quantize(Decimal('1.00'))` (banker's rounding to the
  0.01 grid) becomes `quantize`, built on `round_half_even`.
* the `Mesh` class keeps its three fields: the key→index dictionary
  `vertices` (an association list), the ordered `vertex_array`, and the
  `faces` set (a `Finset` of index triples).
* generators that yield faces become functions returning lists of faces;
  a face is a list of 3 or 4 points.
-/

namespace Gencase

/-- The rounding mode of `Decimal.quantize` under the default context:
round to the nearest integer, ties to the even integer. -/
def round_half_even {α : Type} [LinearOrderedField α] [FloorRing α] (v : α) : ℤ :=
  if v - ⌊v⌋ < 1/2 then ⌊v⌋
  else if 1/2 < v - ⌊v⌋ then ⌊v⌋ + 1
  else if Even ⌊v⌋ then ⌊v⌋ else ⌊v⌋ + 1

/-- `Mesh._quantize`: `Decimal(value).quantize(Decimal('1.00'))`, i.e. the
value rounded to the 0.01 grid with round-half-even. -/
def quantize {α : Type} [LinearOrderedField α] [FloorRing α] (v : α) : α :=
  (round_half_even (v * 100) : α) / 100

/-- A 3-D point `(x, y, z)`. -/
abbrev Point (α : Type) := α × α × α

/-- The quantized key built in `Mesh.get_vertex`: each coordinate is
quantized independently. -/
def quantizePoint {α : Type} [LinearOrderedField α] [FloorRing α] (p : Point α) : Point α :=
  (quantize p.1, quantize p.2.1, quantize p.2.2)

/-- The `Mesh` class: `vertices` is the dictionary from quantized point to
index (kept as an insertion-ordered association list), `vertex_array` the
ordered list of canonical points, `faces` the set of index triples. -/
structure Mesh (α : Type) where
  vertices : List (Point α × ℕ)
  vertex_array : List (Point α)
  faces : Finset (ℕ × ℕ × ℕ)

/-- `Mesh.__init__`. -/
def Mesh.empty {α : Type} : Mesh α := ⟨[], [], ∅⟩

/-- Dictionary lookup (`posn in self.vertices` / `self.vertices[posn]`);
keys are unique, so first match is the match. -/
def lookupP {α : Type} [DecidableEq α] (l : List (Point α × ℕ)) (p : Point α) : Option ℕ :=
  match l with
  | [] => none
  | (k, i) :: rest => if k = p then some i else lookupP rest p

variable {α : Type} [LinearOrderedField α] [FloorRing α] [DecidableEq α]

/-- `Mesh.get_vertex`: quantize, look up, insert if absent, return the
index. -/
def Mesh.get_vertex (m : Mesh α) (pos : Point α) : Mesh α × ℕ :=
  let posn := quantizePoint pos
  match lookupP m.vertices posn with
  | some i => (m, i)
  | none =>
      let index := m.vertex_array.length
      (⟨m.vertices ++ [(posn, index)], m.vertex_array ++ [posn], m.faces⟩, index)

/-- The three-point body of `Mesh.add_face`: resolve the points to indices,
then remove the exact reverse triple if present, else add the triple. -/
def Mesh.add_face3 (m : Mesh α) (a b c : Point α) : Mesh α :=
  let r1 := m.get_vertex a
  let r2 := r1.1.get_vertex b
  let r3 := r2.1.get_vertex c
  let va := r1.2
  let vb := r2.2
  let vc := r3.2
  let m3 := r3.1
  if (vc, vb, va) ∈ m3.faces then
    ⟨m3.vertices, m3.vertex_array, m3.faces.erase (vc, vb, va)⟩
  else
    ⟨m3.vertices, m3.vertex_array, insert (va, vb, vc) m3.faces⟩

/-- `Mesh.add_face(a, b, c, d=None)`: with a fourth point the quad is split
into `(a,b,c)` and `(a,c,d)`; otherwise the three-point body runs. -/
def Mesh.add_face (m : Mesh α) (a b c : Point α) (d : Option (Point α)) : Mesh α :=
  match d with
  | some dp => (m.add_face3 a b c).add_face3 a c dp
  | none => m.add_face3 a b c

/-- `m.add_face(*tuple(face))` as called in `emit_solid_case`: faces of
length 3 or 4 dispatch to `add_face`; other lengths would be a `TypeError`
and never occur. -/
def Mesh.add_face_list (m : Mesh α) (ps : List (Point α)) : Mesh α :=
  match ps with
  | [a, b, c] => m.add_face a b c none
  | [a, b, c, d] => m.add_face a b c (some d)
  | _ => m

/-- A mesh reached from `Mesh()` by a sequence of `add_face` calls. -/
def build_mesh (cmds : List (Point α × Point α × Point α × Option (Point α))) : Mesh α :=
  cmds.foldl (fun m x => m.add_face x.1 x.2.1 x.2.2.1 x.2.2.2) Mesh.empty

/-- Concrete points used by the counterexamples and witnesses. -/
def pA : Point ℚ := (1, 2, 3)

def pB : Point ℚ := (4, 5, 6)

def pC : Point ℚ := (7, 8, 9)

/-- A mesh state that already holds the face `(0, 1, 2)`: it is even
reachable, by one `add_face` call from the empty mesh. -/
def preloaded : Mesh ℚ := Mesh.empty.add_face pA pB pC none

/-- The two coordinates `0.004` and `0.006` differ by less than one
quantization step but quantize to different grid points. -/
def pNear1 : Point ℚ := (1/250, 7, 8)

def pNear2 : Point ℚ := (3/500, 7, 8)

/-- No two distinct faces of `s` are exact reverses of each other: a triple
and its reverse can only both be present when they are the same triple
(a palindrome, `x = z`). -/
def reverse_free (s : Finset (ℕ × ℕ × ℕ)) : Prop :=
  ∀ x y z : ℕ, (x, y, z) ∈ s → (z, y, x) ∈ s → x = z

/-- Decimal rendering of a stored coordinate: every stored coordinate is a
quantized value, an exact integer number of hundredths, and `str` prints
such a `Decimal` with exactly two fractional digits. -/
def renderDec (v : ℚ) : String :=
  let n : ℤ := ⌊v * 100⌋
  let sgn : String := if n < 0 then "-" else ""
  let m : ℕ := n.natAbs
  let frac : ℕ := m % 100
  let fracStr : String := if frac < 10 then "0" ++ toString frac else toString frac
  sgn ++ toString (m / 100) ++ "." ++ fracStr

/-- One `v x y z` line, as produced by `f.write('v {0} {1} {2}\n'...)`. -/
def vertexLine (p : Point ℚ) : String :=
  "v " ++ renderDec p.1 ++ " " ++ renderDec p.2.1 ++ " " ++ renderDec p.2.2 ++ "\n"

/-- One `f i j k` line with 1-based indices, as produced by
`f.write('f {0} {1} {2}\n'...)` with `face[n] + 1`. -/
def faceLine (f : ℕ × ℕ × ℕ) : String :=
  "f " ++ toString (f.1 + 1) ++ " " ++ toString (f.2.1 + 1) ++ " " ++ toString (f.2.2 + 1)
    ++ "\n"

/-- `Mesh.write`: the sink accumulates the header, one line per vertex in
array order, a blank line, then one line per face from the face set (set
iteration order is implementation-defined; the model fixes the `Finset`'s
canonical enumeration). -/
noncomputable def Mesh.write (m : Mesh ℚ) : String :=
  let s1 := "# Auto-generated\n"
  let s2 := m.vertex_array.foldl (fun acc vtx => acc ++ vertexLine vtx) s1
  let s3 := s2 ++ "\n"
  m.faces.toList.foldl (fun acc face => acc ++ faceLine face) s3

/-- The output format as the spec words it: the comment line, the vertex
lines in first-seen order, a blank line, the face lines. -/
noncomputable def write_spec_format (m : Mesh ℚ) : String :=
  "# Auto-generated\n" ++ String.join (m.vertex_array.map vertexLine) ++ "\n"
    ++ String.join (m.faces.toList.map faceLine)

/-- Every index handed out by `get_vertex` is in range, and the range only
grows. -/
def vertices_bounded (m : Mesh α) : Prop :=
  ∀ kv ∈ m.vertices, kv.2 < m.vertex_array.length

/-- Every face's three indices point into the vertex array. -/
def faces_bounded (m : Mesh α) : Prop :=
  ∀ f ∈ m.faces, f.1 < m.vertex_array.length ∧ f.2.1 < m.vertex_array.length ∧
    f.2.2 < m.vertex_array.length

/-! ### The geometry generators (over `ℝ`; Python floats idealized as reals) -/

/-- `generate_chamfer`: the four beveled quads, two of them emitted through
`reversed(...)` exactly as in the source. -/
def generate_chamfer {F : Type} [Field F] (width length thickness height : F) :
    List (List (Point F)) :=
  let hw := width * (1/2)
  let hl := length * (1/2)
  [[(-hw, -hl, height), (-hw + thickness, -hl + thickness, height - thickness),
    (hw - thickness, -hl + thickness, height - thickness), (hw, -hl, height)],
   [(-hw, hl, height), (-hw + thickness, hl - thickness, height - thickness),
    (hw - thickness, hl - thickness, height - thickness), (hw, hl, height)].reverse,
   [(-hw, -hl, height), (-hw + thickness, -hl + thickness, height - thickness),
    (-hw + thickness, hl - thickness, height - thickness), (-hw, hl, height)].reverse,
   [(hw, -hl, height), (hw - thickness, -hl + thickness, height - thickness),
    (hw - thickness, hl - thickness, height - thickness), (hw, hl, height)]]

/-- `pairwise`: consecutive pairs `(s0,s1), (s1,s2), …`. -/
def pairwise {β : Type} (l : List β) : List (β × β) := l.zip l.tail

/-- `triplewise`: consecutive triples `(s0,s1,s2), (s1,s2,s3), …`. -/
def triplewise {β : Type} (l : List β) : List (β × β × β) :=
  l.zip (l.tail.zip l.tail.tail)

/-- `generate_corner`: `POINTS + 1` arc points, `POINTS = 30` for a quarter
turn and `30 * 4` for a full turn, at angles `(i / POINTS) * TOTAL`. -/
noncomputable def generate_corner (radius : ℝ) (full : Bool) : List (ℝ × ℝ) :=
  let POINTS : ℕ := if full then 30 * 4 else 30
  let TOTAL : ℝ := if full then 2 * Real.pi else Real.pi / 2
  (List.range (POINTS + 1)).map (fun (i : ℕ) =>
    (-Real.sin (((i : ℝ) / (POINTS : ℝ)) * TOTAL) * radius,
     -Real.cos (((i : ℝ) / (POINTS : ℝ)) * TOTAL) * radius))

/-- `generate_corner_with_hole`: one quadrant's triangle fan from the outer
corner over the path mid-edge point → quarter arc → other mid-edge point. -/
noncomputable def generate_corner_with_hole (width length hole : ℝ) :
    List (List (Point ℝ)) :=
  let hw := width * (1/2)
  let hl := length * (1/2)
  let points : List (Point ℝ) :=
    (0, -hl, 0) :: ((generate_corner hole false).map (fun q => (q.1, q.2, 0)) ++
      [(-hw, 0, 0)])
  (pairwise points).map (fun ab => [(-hw, -hl, 0), ab.1, ab.2])

/-- The alternating `invert` loop of `generate_hole_edge`: the flag starts
`True` and toggles after every triple. -/
def alternate {β : Type} : Bool → List (β × β × β) → List (List β)
  | _, [] => []
  | invert, t :: rest =>
      (if invert then [t.2.2, t.2.1, t.1] else [t.1, t.2.1, t.2.2]) :: alternate (!invert) rest

/-- `generate_hole_edge`: the interleaved two-ring point stream, banded into
triangles with alternating winding. -/
noncomputable def generate_hole_edge (radius depth : ℝ) : List (List (Point ℝ)) :=
  let points : List (Point ℝ) :=
    (generate_corner radius true).flatMap (fun q => [(q.1, q.2, 0), (q.1, q.2, depth)])
  alternate true (triplewise points)

/-- `transform`: apply the point map to every point of every face, and
reverse each face's point order when `inverting`. -/
def transform {β γ : Type} (source : List (List β)) (t : β → γ) (inverting : Bool) :
    List (List γ) :=
  source.map (fun item =>
    let result := item.map t
    if inverting then result.reverse else result)

/-- `generate_face_with_hole`: the quadrant fan tiled into all four
quadrants, the mirrored copies with inverted winding. -/
noncomputable def generate_face_with_hole (width length hole : ℝ) :
    List (List (Point ℝ)) :=
  generate_corner_with_hole width length hole ++
  (transform (generate_corner_with_hole width length hole)
    (fun p => (-p.1, p.2.1, p.2.2)) true ++
  (transform (generate_corner_with_hole width length hole)
    (fun p => (p.1, -p.2.1, p.2.2)) true ++
  transform (generate_corner_with_hole width length hole)
    (fun p => (-p.1, -p.2.1, p.2.2)) false))

/-- `generate_face`: the chamfer ring, then either the two flat quads (no
hole) or the outer hole face, the inverted inset hole face one thickness
lower, and the joining hole wall. -/
noncomputable def generate_face (width length thickness hole height : ℝ) :
    List (List (Point ℝ)) :=
  let hw := width * (1/2)
  let hl := length * (1/2)
  generate_chamfer width length thickness height ++
  (if hole = 0 then
    [[(-hw, -hl, height), (hw, -hl, height), (hw, hl, height), (-hw, hl, height)],
     [(-hw + thickness, -hl + thickness, height - thickness),
      (-hw + thickness, hl - thickness, height - thickness),
      (hw - thickness, hl - thickness, height - thickness),
      (hw - thickness, -hl + thickness, height - thickness)]]
  else
    transform (generate_face_with_hole width length hole)
      (fun p => (p.1, p.2.1, p.2.2 + height)) false ++
    (transform (generate_face_with_hole (width - thickness * 2) (length - thickness * 2) hole)
      (fun p => (p.1, p.2.1, height + p.2.2 - thickness)) true ++
    transform (generate_hole_edge hole thickness)
      (fun p => (p.1, p.2.1, height + p.2.2 - thickness)) false))

/-- The faces the lid branch of `emit_solid_case` feeds into the mesh under
the default dimensions (width = length = 100, thickness = 5, depth = 60)
with button 22 and clearance 1: `produce(generate_face(width, length,
thickness, height=d, hole=button+clearance))`, whose `transform` uses the
identity map without inversion. -/
noncomputable def lid_faces : List (List (Point ℝ)) :=
  transform (generate_face 100 100 5 (22 + 1) 60) (fun p => p) false

/-- The mesh the lid branch builds: every produced face is fed to
`add_face`. -/
noncomputable def lid_mesh : Mesh ℝ :=
  lid_faces.foldl Mesh.add_face_list Mesh.empty

/-- The front trapezoid (`y = -length/2`) in its given point order. -/
def chamfer_front_given {F : Type} [Field F] (width length thickness height : F) :
    List (Point F) :=
  [(-(width * (1/2)), -(length * (1/2)), height),
   (-(width * (1/2)) + thickness, -(length * (1/2)) + thickness, height - thickness),
   (width * (1/2) - thickness, -(length * (1/2)) + thickness, height - thickness),
   (width * (1/2), -(length * (1/2)), height)]

/-- The back trapezoid (`y = +length/2`) in its given point order. -/
def chamfer_back_given {F : Type} [Field F] (width length thickness height : F) :
    List (Point F) :=
  [(-(width * (1/2)), length * (1/2), height),
   (-(width * (1/2)) + thickness, length * (1/2) - thickness, height - thickness),
   (width * (1/2) - thickness, length * (1/2) - thickness, height - thickness),
   (width * (1/2), length * (1/2), height)]

/-- The left trapezoid (`x = -width/2`) in its given point order. -/
def chamfer_left_given {F : Type} [Field F] (width length thickness height : F) :
    List (Point F) :=
  [(-(width * (1/2)), -(length * (1/2)), height),
   (-(width * (1/2)) + thickness, -(length * (1/2)) + thickness, height - thickness),
   (-(width * (1/2)) + thickness, length * (1/2) - thickness, height - thickness),
   (-(width * (1/2)), length * (1/2), height)]

/-- The right trapezoid (`x = +width/2`) in its given point order. -/
def chamfer_right_given {F : Type} [Field F] (width length thickness height : F) :
    List (Point F) :=
  [(width * (1/2), -(length * (1/2)), height),
   (width * (1/2) - thickness, -(length * (1/2)) + thickness, height - thickness),
   (width * (1/2) - thickness, length * (1/2) - thickness, height - thickness),
   (width * (1/2), length * (1/2), height)]

/-- A point whose `(x, y)` lies at squared distance at least `23² = 529`
from the panel axis, with both coordinates bounded by 50.  Every point of
every lid face satisfies this. -/
def far_point (p : Point ℝ) : Prop :=
  529 ≤ p.1 ^ 2 + p.2.1 ^ 2 ∧ |p.1| ≤ 50 ∧ |p.2.1| ≤ 50

/-! ### Basic lemmas about `get_vertex` and `add_face` -/

omit [LinearOrderedField α] [FloorRing α] in
theorem lookupP_append_some {l1 l2 : List (Point α × ℕ)} {p : Point α} {i : ℕ}
    (h : lookupP l1 p = some i) : lookupP (l1 ++ l2) p = some i := by
  induction l1 with
  | nil => simp [lookupP] at h
  | cons kv rest ih =>
      rw [List.cons_append]
      rw [lookupP] at h ⊢
      rcases kv with ⟨k, j⟩
      by_cases hk : k = p
      · simpa [hk] using h
      · rw [if_neg hk] at h ⊢
        exact ih h

omit [LinearOrderedField α] [FloorRing α] in
theorem lookupP_append_none {l1 l2 : List (Point α × ℕ)} {p : Point α}
    (h : lookupP l1 p = none) : lookupP (l1 ++ l2) p = lookupP l2 p := by
  induction l1 with
  | nil => simp [lookupP]
  | cons kv rest ih =>
      rw [List.cons_append]
      rw [lookupP] at h ⊢
      rcases kv with ⟨k, j⟩
      by_cases hk : k = p
      · rw [if_pos hk] at h; exact absurd h (by simp)
      · rw [if_neg hk] at h ⊢
        exact ih h

theorem get_vertex_of_lookup {m : Mesh α} {p : Point α} {i : ℕ}
    (h : lookupP m.vertices (quantizePoint p) = some i) : m.get_vertex p = (m, i) := by
  rw [Mesh.get_vertex, h]

theorem get_vertex_faces (m : Mesh α) (p : Point α) : (m.get_vertex p).1.faces = m.faces := by
  rw [Mesh.get_vertex]
  cases lookupP m.vertices (quantizePoint p) <;> rfl

theorem get_vertex_vertices_ext (m : Mesh α) (p : Point α) :
    ∃ s, (m.get_vertex p).1.vertices = m.vertices ++ s := by
  rw [Mesh.get_vertex]
  cases lookupP m.vertices (quantizePoint p) with
  | none => exact ⟨_, rfl⟩
  | some i => exact ⟨[], by simp⟩

theorem get_vertex_array_ext (m : Mesh α) (p : Point α) :
    (m.get_vertex p).1.vertex_array = m.vertex_array ∨
      (m.get_vertex p).1.vertex_array = m.vertex_array ++ [quantizePoint p] := by
  rw [Mesh.get_vertex]
  cases lookupP m.vertices (quantizePoint p) with
  | none => exact Or.inr rfl
  | some i => exact Or.inl rfl

theorem get_vertex_registers (m : Mesh α) (p : Point α) :
    lookupP (m.get_vertex p).1.vertices (quantizePoint p) = some (m.get_vertex p).2 := by
  rw [Mesh.get_vertex]
  cases h : lookupP m.vertices (quantizePoint p) with
  | some i => exact h
  | none =>
      simp only
      rw [lookupP_append_none h, lookupP, if_pos rfl]

theorem get_vertex_preserves {m : Mesh α} {k : Point α} {i : ℕ}
    (h : lookupP m.vertices k = some i) (p : Point α) :
    lookupP (m.get_vertex p).1.vertices k = some i := by
  obtain ⟨s, hs⟩ := get_vertex_vertices_ext m p
  rw [hs]
  exact lookupP_append_some h

theorem add_face3_vertices (m : Mesh α) (a b c : Point α) :
    (m.add_face3 a b c).vertices =
      ((((m.get_vertex a).1.get_vertex b).1.get_vertex c).1).vertices := by
  rw [Mesh.add_face3]
  split <;> rfl

theorem add_face3_array (m : Mesh α) (a b c : Point α) :
    (m.add_face3 a b c).vertex_array =
      ((((m.get_vertex a).1.get_vertex b).1.get_vertex c).1).vertex_array := by
  rw [Mesh.add_face3]
  split <;> rfl

/-- The face set `m.add_face3 a b c` produces, written over the resolved
indices. -/
theorem add_face3_faces (m : Mesh α) (a b c : Point α) :
    (m.add_face3 a b c).faces =
      (let va := (m.get_vertex a).2
       let vb := ((m.get_vertex a).1.get_vertex b).2
       let vc := (((m.get_vertex a).1.get_vertex b).1.get_vertex c).2
       if (vc, vb, va) ∈ m.faces then m.faces.erase (vc, vb, va)
       else insert (va, vb, vc) m.faces) := by
  have hf : ((((m.get_vertex a).1.get_vertex b).1.get_vertex c).1).faces = m.faces := by
    rw [get_vertex_faces, get_vertex_faces, get_vertex_faces]
  rw [Mesh.add_face3]
  simp only [hf]
  split <;> rfl

/-! ### Characterization of round-half-even -/

omit [DecidableEq α] in
theorem round_half_even_dist (v : α) : |v - round_half_even v| ≤ 1 / 2 := by
  have h1 : (⌊v⌋ : α) ≤ v := Int.floor_le v
  have h2 : v < ⌊v⌋ + 1 := Int.lt_floor_add_one v
  rw [round_half_even]
  split_ifs with hf hg he <;> rw [abs_le] <;> push_cast <;> constructor <;> linarith

omit [DecidableEq α] in
theorem round_half_even_nearest (v : α) (k : ℤ) :
    |v - round_half_even v| ≤ |v - k| := by
  have h1 : (⌊v⌋ : α) ≤ v := Int.floor_le v
  have h2 : v < ⌊v⌋ + 1 := Int.lt_floor_add_one v
  have hk : (k : α) ≤ (⌊v⌋ : α) ∨ (⌊v⌋ : α) + 1 ≤ (k : α) := by
    rcases le_or_lt k ⌊v⌋ with h | h
    · exact Or.inl (by exact_mod_cast h)
    · right
      have hik : ⌊v⌋ + 1 ≤ k := h
      calc (⌊v⌋ : α) + 1 = ((⌊v⌋ + 1 : ℤ) : α) := by push_cast; ring
      _ ≤ (k : α) := by exact_mod_cast hik
  have hb1 : ∀ j : ℤ, (j : α) ≤ (⌊v⌋ : α) → v - (⌊v⌋ : α) ≤ |v - j| := by
    intro j hj
    rw [abs_of_nonneg (by linarith)]
    linarith
  have hb2 : ∀ j : ℤ, (⌊v⌋ : α) + 1 ≤ (j : α) → (⌊v⌋ : α) + 1 - v ≤ |v - j| := by
    intro j hj
    rw [abs_of_nonpos (by linarith)]
    linarith
  rw [round_half_even]
  split_ifs with hf hg he
  · rw [abs_of_nonneg (by linarith)]
    rcases hk with hk | hk
    · exact hb1 k hk
    · have := hb2 k hk
      linarith
  · rw [show ((((⌊v⌋ : ℤ) + 1 : ℤ)) : α) = (⌊v⌋ : α) + 1 by push_cast; ring,
        abs_of_nonpos (by linarith)]
    rcases hk with hk | hk
    · have := hb1 k hk
      linarith
    · have := hb2 k hk
      linarith
  · rw [abs_of_nonneg (by linarith)]
    rcases hk with hk | hk
    · exact hb1 k hk
    · have := hb2 k hk
      linarith
  · rw [show ((((⌊v⌋ : ℤ) + 1 : ℤ)) : α) = (⌊v⌋ : α) + 1 by push_cast; ring,
        abs_of_nonpos (by linarith)]
    rcases hk with hk | hk
    · have := hb1 k hk
      linarith
    · have := hb2 k hk
      linarith

omit [DecidableEq α] in
theorem round_half_even_tie (v : α) (h : |v - round_half_even v| = 1 / 2) :
    Even (round_half_even v) := by
  have h1 : (⌊v⌋ : α) ≤ v := Int.floor_le v
  have h2 : v < ⌊v⌋ + 1 := Int.lt_floor_add_one v
  rw [round_half_even] at h ⊢
  split_ifs at h ⊢ with hf hg he
  · exfalso
    rw [abs_of_nonneg (by linarith)] at h
    linarith
  · exfalso
    rw [show ((((⌊v⌋ : ℤ) + 1 : ℤ)) : α) = (⌊v⌋ : α) + 1 by push_cast; ring,
        abs_of_nonpos (by linarith)] at h
    linarith
  · exact he
  · rcases Int.even_or_odd ⌊v⌋ with hev | hodd
    · exact absurd hev he
    · exact Int.even_add_one.mpr (by simpa using hodd)

/-! ### Claims C1, C3, C4 -/

/-- C1: `add_face(a, b, c)` first resolves `a`, `b`, `c` to quantized vertex
indices `va`, `vb`, `vc` (via `get_vertex`, which keys on the quantized
point); if the face set already contains the exact reverse triple
`(vc, vb, va)`, that triple is removed and nothing is added; if neither the
triple nor its reverse is present, `(va, vb, vc)` is added.  The equation
below captures both cases of the claim (and the remaining one). -/
theorem C1_add_face_cancellation (m : Mesh ℚ) (a b c : Point ℚ) :
    (m.add_face a b c none).faces =
      (let va := (m.get_vertex a).2
       let vb := ((m.get_vertex a).1.get_vertex b).2
       let vc := (((m.get_vertex a).1.get_vertex b).1.get_vertex c).2
       if (vc, vb, va) ∈ m.faces then m.faces.erase (vc, vb, va)
       else insert (va, vb, vc) m.faces) := by
  rw [Mesh.add_face]
  exact add_face3_faces m a b c

/-- C3: `add_face(a, b, c, d)` leaves the mesh — vertex registry and face
set alike — in exactly the state of `add_face(a, b, c)` followed by
`add_face(a, c, d)`; the source performs literally these two calls. -/
theorem C3_quad_split (m : Mesh ℚ) (a b c d : Point ℚ) :
    m.add_face a b c (some d) = (m.add_face a b c none).add_face a c d none := rfl

/-- C4: `Mesh._quantize` rounds its argument to the 0.01 grid with
round-half-to-even over exact arithmetic: the result is an integer number
`n` of hundredths, at most half a grid step away from the input, no grid
point is closer, and an exact tie goes to an even `n`; and `get_vertex`
stores exactly this quantized point (the stored array either is unchanged
or gains the quantized point, which `write` later emits). -/
theorem C4_quantize_half_even :
    (∀ v : ℚ, ∃ n : ℤ, quantize v = (n : ℚ) / 100 ∧
        |v - (n : ℚ) / 100| ≤ 1 / 200 ∧
        (∀ k : ℤ, |v - (n : ℚ) / 100| ≤ |v - (k : ℚ) / 100|) ∧
        (|v - (n : ℚ) / 100| = 1 / 200 → Even n)) ∧
    (∀ (m : Mesh ℚ) (p : Point ℚ),
        (m.get_vertex p).1.vertex_array = m.vertex_array ∨
        (m.get_vertex p).1.vertex_array = m.vertex_array ++ [quantizePoint p]) := by
  constructor
  · intro v
    refine ⟨round_half_even (v * 100), rfl, ?_, ?_, ?_⟩
    · have h := round_half_even_dist (v * 100)
      rw [show v - (round_half_even (v * 100) : ℚ) / 100
            = (v * 100 - round_half_even (v * 100)) / 100 by ring, abs_div]
      rw [abs_of_pos (by norm_num : (0:ℚ) < 100)]
      linarith
    · intro k
      have h := round_half_even_nearest (v * 100) k
      rw [show v - (round_half_even (v * 100) : ℚ) / 100
            = (v * 100 - round_half_even (v * 100)) / 100 by ring,
          show v - (k : ℚ) / 100 = (v * 100 - k) / 100 by ring, abs_div, abs_div]
      rw [abs_of_pos (by norm_num : (0:ℚ) < 100)]
      linarith
    · intro h
      apply round_half_even_tie (v * 100)
      rw [show v * 100 - (round_half_even (v * 100) : ℚ)
            = (v - (round_half_even (v * 100) : ℚ) / 100) * 100 by ring, abs_mul]
      rw [abs_of_pos (by norm_num : (0:ℚ) < 100), h]
      norm_num
  · intro m p
    exact get_vertex_array_ext m p

/-! ### Claim C2: add then add-reverse -/

/-- C2 counterexample: on a mesh state whose face set already contains the
resolved triple, `add_face(a,b,c)` followed by `add_face(c,b,a)` does NOT
restore the face set: the pre-existing face is cancelled away. -/
theorem C2_counterexample :
    ¬ (((preloaded.add_face pA pB pC none).add_face pC pB pA none).faces
        = preloaded.faces) := by
  have qA : quantizePoint ((1 : ℚ), 2, 3) = ((1 : ℚ), 2, 3) := by
    norm_num [quantizePoint, quantize, round_half_even]
  have qB : quantizePoint ((4 : ℚ), 5, 6) = ((4 : ℚ), 5, 6) := by
    norm_num [quantizePoint, quantize, round_half_even]
  have qC : quantizePoint ((7 : ℚ), 8, 9) = ((7 : ℚ), 8, 9) := by
    norm_num [quantizePoint, quantize, round_half_even]
  have hpre : preloaded =
      ⟨[(((1 : ℚ), 2, 3), 0), (((4 : ℚ), 5, 6), 1), (((7 : ℚ), 8, 9), 2)],
       [((1 : ℚ), 2, 3), ((4 : ℚ), 5, 6), ((7 : ℚ), 8, 9)], {(0, 1, 2)}⟩ := by
    rw [preloaded, Mesh.add_face, Mesh.add_face3]
    norm_num [Mesh.get_vertex, Mesh.empty, qA, qB, qC, lookupP, pA, pB, pC, Prod.ext_iff]
  have hadd : preloaded.add_face pA pB pC none =
      ⟨[(((1 : ℚ), 2, 3), 0), (((4 : ℚ), 5, 6), 1), (((7 : ℚ), 8, 9), 2)],
       [((1 : ℚ), 2, 3), ((4 : ℚ), 5, 6), ((7 : ℚ), 8, 9)], {(0, 1, 2)}⟩ := by
    rw [hpre, Mesh.add_face, Mesh.add_face3]
    norm_num [Mesh.get_vertex, qA, qB, qC, lookupP, pA, pB, pC, Prod.ext_iff]
  rw [hadd, hpre, Mesh.add_face, Mesh.add_face3]
  norm_num [Mesh.get_vertex, qA, qB, qC, lookupP, pA, pB, pC, Prod.ext_iff]
  exact fun h => Finset.singleton_ne_empty _ h.symm

/-- C2 (amended): provided the face set does not already contain the
resolved triple `(va,vb,vc)` itself, `add_face(a,b,c)` followed
immediately by `add_face(c,b,a)` restores the face set: if the reverse
`(vc,vb,va)` was present the first call erases it and the second call
re-inserts it, and if neither was present the first call inserts the
triple and the second call erases it again. -/
theorem C2_cancellation_symmetry (m : Mesh ℚ) (a b c : Point ℚ)
    (h : ((m.get_vertex a).2,
          ((m.get_vertex a).1.get_vertex b).2,
          (((m.get_vertex a).1.get_vertex b).1.get_vertex c).2) ∉ m.faces) :
    ((m.add_face a b c none).add_face c b a none).faces = m.faces := by
  simp only [Mesh.add_face]
  set r1 := m.get_vertex a with hr1
  set r2 := r1.1.get_vertex b with hr2
  set r3 := r2.1.get_vertex c with hr3
  have hf3 : r3.1.faces = m.faces := by
    rw [hr3, hr2, hr1, get_vertex_faces, get_vertex_faces, get_vertex_faces]
  -- after the first call all three quantized points are registered
  have hc : lookupP r3.1.vertices (quantizePoint c) = some r3.2 := by
    rw [hr3]; exact get_vertex_registers r2.1 c
  have hb : lookupP r3.1.vertices (quantizePoint b) = some r2.2 := by
    rw [hr3]
    exact get_vertex_preserves (by rw [hr2]; exact get_vertex_registers r1.1 b) c
  have ha : lookupP r3.1.vertices (quantizePoint a) = some r1.2 := by
    rw [hr3, hr2]
    exact get_vertex_preserves (get_vertex_preserves
      (by rw [hr1]; exact get_vertex_registers m a) b) c
  by_cases hrev : (r3.2, r2.2, r1.2) ∈ m.faces
  · -- the reverse was present: the first call erases it
    have hM : m.add_face3 a b c =
        ⟨r3.1.vertices, r3.1.vertex_array, m.faces.erase (r3.2, r2.2, r1.2)⟩ := by
      rw [Mesh.add_face3, ← hr1, ← hr2, ← hr3]
      rw [if_pos (by rw [hf3]; exact hrev), hf3]
    rw [hM]
    -- the second call resolves (c, b, a) to (vc, vb, va) without moving
    set M : Mesh ℚ := ⟨r3.1.vertices, r3.1.vertex_array, m.faces.erase (r3.2, r2.2, r1.2)⟩
      with hMdef
    have g1 : M.get_vertex c = (M, r3.2) := get_vertex_of_lookup hc
    have g2 : M.get_vertex b = (M, r2.2) := get_vertex_of_lookup hb
    have g3 : M.get_vertex a = (M, r1.2) := get_vertex_of_lookup ha
    have hnotin : (r1.2, r2.2, r3.2) ∉ M.faces := by
      have hMf : M.faces = m.faces.erase (r3.2, r2.2, r1.2) := by rw [hMdef]
      rw [hMf]
      exact fun hmem => h (Finset.mem_of_mem_erase hmem)
    rw [Mesh.add_face3, g1]
    simp only [g1, g2, g3]
    -- the triple itself is absent, so the second call re-inserts the reverse
    rw [if_neg hnotin]
    simp only [hMdef]
    exact Finset.insert_erase hrev
  · -- neither was present: the first call inserts the triple
    have hM : m.add_face3 a b c =
        ⟨r3.1.vertices, r3.1.vertex_array, insert (r1.2, r2.2, r3.2) m.faces⟩ := by
      rw [Mesh.add_face3, ← hr1, ← hr2, ← hr3]
      rw [if_neg (by rw [hf3]; exact hrev), hf3]
    rw [hM]
    set M : Mesh ℚ := ⟨r3.1.vertices, r3.1.vertex_array, insert (r1.2, r2.2, r3.2) m.faces⟩
      with hMdef
    have g1 : M.get_vertex c = (M, r3.2) := get_vertex_of_lookup hc
    have g2 : M.get_vertex b = (M, r2.2) := get_vertex_of_lookup hb
    have g3 : M.get_vertex a = (M, r1.2) := get_vertex_of_lookup ha
    rw [Mesh.add_face3, g1]
    simp only [g1, g2, g3]
    rw [if_pos (by simp [hMdef])]
    simp only [hMdef]
    exact Finset.erase_insert h

/-- Witness for the amended C2 at a concrete input: the empty mesh and the
points `pA`, `pB`, `pC`. -/
theorem C2_cancellation_symmetry_witness :
    ((Mesh.empty.add_face pA pB pC none).add_face pC pB pA none).faces
      = (Mesh.empty : Mesh ℚ).faces :=
  C2_cancellation_symmetry Mesh.empty pA pB pC (by simp [Mesh.empty])

/-! ### Claim C5: vertex deduplication -/

/-- C5 counterexample: `pNear1` and `pNear2` differ by less than `0.01` in
every axis, yet `get_vertex` hands out two different indices for them. -/
theorem C5_counterexample :
    (|pNear1.1 - pNear2.1| < 1/100 ∧ |pNear1.2.1 - pNear2.2.1| < 1/100 ∧
     |pNear1.2.2 - pNear2.2.2| < 1/100) ∧
    ¬ (((Mesh.empty.get_vertex pNear1).1.get_vertex pNear2).2
        = (Mesh.empty.get_vertex pNear1).2) := by
  constructor
  · norm_num [pNear1, pNear2, abs_lt]
  · norm_num [pNear1, pNear2, Mesh.get_vertex, Mesh.empty, quantizePoint, quantize,
      round_half_even, lookupP, Prod.ext_iff]

/-- C5 (amended): two points whose coordinates quantize to the same grid
point in each axis receive the same index from consecutive `get_vertex`
calls (coordinates merely within one quantization step of each other can
still fall on opposite sides of a grid boundary). -/
theorem C5_vertex_dedup (m : Mesh ℚ) (p q : Point ℚ)
    (h : quantizePoint p = quantizePoint q) :
    ((m.get_vertex p).1.get_vertex q).2 = (m.get_vertex p).2 := by
  have hreg : lookupP (m.get_vertex p).1.vertices (quantizePoint q)
      = some (m.get_vertex p).2 := by
    rw [← h]
    exact get_vertex_registers m p
  rw [get_vertex_of_lookup hreg]

/-- Witness for the amended C5: `(0,0,0)` and `(0.001, 0, 0)` quantize
identically and get the same index on the empty mesh. -/
theorem C5_vertex_dedup_witness :
    ((Mesh.empty.get_vertex pA).1.get_vertex ((1001/1000 : ℚ), 2, 3)).2
      = (Mesh.empty.get_vertex pA).2 :=
  C5_vertex_dedup Mesh.empty pA ((1001/1000 : ℚ), 2, 3)
    (by norm_num [pA, quantizePoint, quantize, round_half_even])

/-! ### Claim C10: no reverse pairs ever coexist -/

theorem add_face3_reverse_free {m : Mesh α} (h : reverse_free m.faces)
    (a b c : Point α) : reverse_free (m.add_face3 a b c).faces := by
  have hf3 : ((((m.get_vertex a).1.get_vertex b).1.get_vertex c).1).faces = m.faces := by
    rw [get_vertex_faces, get_vertex_faces, get_vertex_faces]
  rw [Mesh.add_face3]
  simp only [hf3]
  split_ifs with hrev
  · intro x y z hx hz
    exact h x y z (Finset.mem_of_mem_erase hx) (Finset.mem_of_mem_erase hz)
  · intro x y z hx hz
    rcases Finset.mem_insert.mp hx with hx1 | hx2
    · rcases Finset.mem_insert.mp hz with hz1 | hz2
      · rw [Prod.ext_iff, Prod.ext_iff] at hx1 hz1
        simp only at hx1 hz1
        omega
      · exfalso
        apply hrev
        rw [Prod.ext_iff, Prod.ext_iff] at hx1
        simp only at hx1
        obtain ⟨e1, e2, e3⟩ := hx1
        rw [← e1, ← e2, ← e3]
        exact hz2
    · rcases Finset.mem_insert.mp hz with hz1 | hz2
      · exfalso
        apply hrev
        rw [Prod.ext_iff, Prod.ext_iff] at hz1
        simp only at hz1
        obtain ⟨e1, e2, e3⟩ := hz1
        rw [← e1, ← e2, ← e3]
        exact hx2
      · exact h x y z hx2 hz2

theorem add_face_reverse_free {m : Mesh α} (h : reverse_free m.faces)
    (a b c : Point α) (d : Option (Point α)) :
    reverse_free (m.add_face a b c d).faces := by
  cases d with
  | none => exact add_face3_reverse_free h a b c
  | some dp => exact add_face3_reverse_free (add_face3_reverse_free h a b c) a c dp

/-- C10: starting from the empty mesh, after every sequence of `add_face`
calls the face set never holds two distinct index triples that are exact
reverses of each other, so back-to-back duplicate faces cannot coexist. -/
theorem C10_reverse_free_invariant
    (cmds : List (Point ℚ × Point ℚ × Point ℚ × Option (Point ℚ))) :
    reverse_free (build_mesh cmds).faces := by
  rw [build_mesh]
  have base : reverse_free (Mesh.empty : Mesh ℚ).faces := by
    intro x y z hx
    simp [Mesh.empty] at hx
  generalize Mesh.empty = m0 at base ⊢
  induction cmds generalizing m0 with
  | nil => exact base
  | cons x rest ih =>
      rw [List.foldl_cons]
      exact ih _ (add_face_reverse_free base x.1 x.2.1 x.2.2.1 x.2.2.2)

/-! ### Claim C9: the output format of `Mesh.write` -/

theorem string_eq_of_data {a b : String} (h : a.data = b.data) : a = b := by
  cases a
  cases b
  exact congrArg String.mk h

theorem join_cons (a : String) (l : List String) :
    String.join (a :: l) = a ++ String.join l := by
  apply string_eq_of_data
  simp

theorem foldl_append_join {β : Type} (g : β → String) (l : List β) (s : String) :
    l.foldl (fun acc x => acc ++ g x) s = s ++ String.join (l.map g) := by
  induction l generalizing s with
  | nil =>
      rw [List.foldl_nil, List.map_nil, show String.join [] = "" from rfl,
        String.append_empty]
  | cons x rest ih =>
      rw [List.foldl_cons, ih, List.map_cons, join_cons, String.append_assoc]

omit [LinearOrderedField α] [FloorRing α] in
theorem lookupP_mem {l : List (Point α × ℕ)} {p : Point α} {i : ℕ}
    (h : lookupP l p = some i) : (p, i) ∈ l := by
  induction l with
  | nil => simp [lookupP] at h
  | cons kv rest ih =>
      rw [lookupP] at h
      rcases kv with ⟨k, j⟩
      by_cases hk : k = p
      · rw [if_pos hk] at h
        simp only [Option.some.injEq] at h
        subst hk h
        exact List.mem_cons_self _ _
      · rw [if_neg hk] at h
        exact List.mem_cons_of_mem _ (ih h)

theorem get_vertex_bounds {m : Mesh α} (hm : vertices_bounded m) (p : Point α) :
    vertices_bounded (m.get_vertex p).1 ∧
    (m.get_vertex p).2 < (m.get_vertex p).1.vertex_array.length ∧
    m.vertex_array.length ≤ (m.get_vertex p).1.vertex_array.length := by
  rw [Mesh.get_vertex]
  cases h : lookupP m.vertices (quantizePoint p) with
  | some i => exact ⟨hm, hm _ (lookupP_mem h), le_refl _⟩
  | none =>
      refine ⟨?_, ?_, ?_⟩
      · intro kv hkv
        simp only [List.length_append, List.length_singleton]
        rcases List.mem_append.mp hkv with hold | hnew
        · exact lt_trans (hm _ hold) (by omega)
        · simp only [List.mem_singleton] at hnew
          rw [hnew]
          omega
      · simp
      · simp

theorem add_face3_bounds {m : Mesh α} (hm : vertices_bounded m ∧ faces_bounded m)
    (a b c : Point α) :
    vertices_bounded (m.add_face3 a b c) ∧ faces_bounded (m.add_face3 a b c) := by
  obtain ⟨hv, hf⟩ := hm
  obtain ⟨hv1, hi1, hl1⟩ := get_vertex_bounds hv a
  obtain ⟨hv2, hi2, hl2⟩ := get_vertex_bounds hv1 b
  obtain ⟨hv3, hi3, hl3⟩ := get_vertex_bounds hv2 c
  set r1 := m.get_vertex a
  set r2 := r1.1.get_vertex b
  set r3 := r2.1.get_vertex c
  have harr : (m.add_face3 a b c).vertex_array = r3.1.vertex_array := add_face3_array m a b c
  have hver : (m.add_face3 a b c).vertices = r3.1.vertices := add_face3_vertices m a b c
  have hfound : ∀ g ∈ m.faces, g.1 < r3.1.vertex_array.length ∧
      g.2.1 < r3.1.vertex_array.length ∧ g.2.2 < r3.1.vertex_array.length := by
    intro g hg
    obtain ⟨b1, b2, b3⟩ := hf g hg
    exact ⟨by omega, by omega, by omega⟩
  constructor
  · intro kv hkv
    rw [hver] at hkv
    rw [harr]
    exact hv3 _ hkv
  · intro g hg
    rw [harr]
    have hface : (m.add_face3 a b c).faces = (if (r3.2, r2.2, r1.2) ∈ m.faces
        then m.faces.erase (r3.2, r2.2, r1.2) else insert (r1.2, r2.2, r3.2) m.faces) :=
      add_face3_faces m a b c
    rw [hface] at hg
    split_ifs at hg with hmem
    · exact hfound g (Finset.mem_of_mem_erase hg)
    · rcases Finset.mem_insert.mp hg with hnew | hold
      · rw [hnew]
        dsimp only
        exact ⟨by omega, by omega, hi3⟩
      · exact hfound g hold

theorem add_face_bounds {m : Mesh α} (hm : vertices_bounded m ∧ faces_bounded m)
    (a b c : Point α) (d : Option (Point α)) :
    vertices_bounded (m.add_face a b c d) ∧ faces_bounded (m.add_face a b c d) := by
  cases d with
  | none => exact add_face3_bounds hm a b c
  | some dp => exact add_face3_bounds (add_face3_bounds hm a b c) a c dp

/-- C9: `write` emits exactly the comment line `# Auto-generated`, one
`v x y z` line per vertex in first-seen order, a blank line, then one
`f i j k` line per retained face; and on every mesh built by `add_face`
calls the face lines' 1-based indices reference the emitted vertex list
(each index `+ 1` lies between 1 and the vertex count). -/
theorem C9_write_format :
    (∀ m : Mesh ℚ, m.write = write_spec_format m) ∧
    (∀ cmds : List (Point ℚ × Point ℚ × Point ℚ × Option (Point ℚ)),
      ∀ f ∈ (build_mesh cmds).faces,
        1 ≤ f.1 + 1 ∧ f.1 + 1 ≤ (build_mesh cmds).vertex_array.length ∧
        1 ≤ f.2.1 + 1 ∧ f.2.1 + 1 ≤ (build_mesh cmds).vertex_array.length ∧
        1 ≤ f.2.2 + 1 ∧ f.2.2 + 1 ≤ (build_mesh cmds).vertex_array.length) := by
  constructor
  · intro m
    simp only [Mesh.write, write_spec_format, foldl_append_join, String.append_assoc]
  · intro cmds
    have key : vertices_bounded (build_mesh cmds) ∧ faces_bounded (build_mesh cmds) := by
      rw [build_mesh]
      have base : vertices_bounded (Mesh.empty : Mesh ℚ) ∧
          faces_bounded (Mesh.empty : Mesh ℚ) := by
        constructor
        · intro kv hkv
          simp [Mesh.empty] at hkv
        · intro f hf
          simp [Mesh.empty] at hf
      generalize Mesh.empty = m0 at base ⊢
      induction cmds generalizing m0 with
      | nil => exact base
      | cons x rest ih =>
          rw [List.foldl_cons]
          exact ih _ (add_face_bounds base x.1 x.2.1 x.2.2.1 x.2.2.2)
    intro f hf
    obtain ⟨b1, b2, b3⟩ := key.2 f hf
    exact ⟨by omega, by omega, by omega, by omega, by omega, by omega⟩

/-! ### Claim C6: the corner arc -/

/-- C6 counterexample: `generate_corner` yields `POINTS + 1` points — 31
for the quarter turn and 121 for the full turn — not 30 and 120 as
claimed (`range(POINTS + 1)` includes both arc endpoints). -/
theorem C6_counterexample :
    (generate_corner 1 false).length = 31 ∧ (generate_corner 1 true).length = 121 ∧
    ¬ ((generate_corner 1 false).length = 30 ∧ (generate_corner 1 true).length = 120) := by
  norm_num [generate_corner]

/-- C6 (amended): `generate_corner radius full` produces exactly 31
(quarter turn) or 121 (full turn) evenly angle-spaced points of the arc
`(-sin θ · radius, -cos θ · radius)`, with `θ = (i / 30) · (π/2)` resp.
`θ = (i / 120) · 2π` for `i = 0 … 30` resp. `0 … 120`. -/
theorem C6_corner_arc (radius : ℝ) :
    (generate_corner radius false).length = 31 ∧
    (generate_corner radius true).length = 121 ∧
    (∀ i : ℕ, i < 31 →
      (generate_corner radius false)[i]? =
        some (-Real.sin (((i : ℝ) / 30) * (Real.pi / 2)) * radius,
              -Real.cos (((i : ℝ) / 30) * (Real.pi / 2)) * radius)) ∧
    (∀ i : ℕ, i < 121 →
      (generate_corner radius true)[i]? =
        some (-Real.sin (((i : ℝ) / 120) * (2 * Real.pi)) * radius,
              -Real.cos (((i : ℝ) / 120) * (2 * Real.pi)) * radius)) := by
  refine ⟨by norm_num [generate_corner], by norm_num [generate_corner], ?_, ?_⟩
  · intro i hi
    have hi2 : i < 30 + 1 := by omega
    norm_num [generate_corner, List.getElem?_map, List.getElem?_range, hi2]
  · intro i hi
    have hi2 : i < 30 * 4 + 1 := by omega
    norm_num [generate_corner, List.getElem?_map, List.getElem?_range, hi2]

/-! ### Claim C7: the chamfer ring -/

/-- C7 counterexample: the claimed emission — front and back as given,
left and right point-reversed — does not match `generate_chamfer`: at
width = length = 4, thickness = 1, height = 0 the second emitted face is
the reverse of the back trapezoid, not the back trapezoid as given. -/
theorem C7_counterexample :
    generate_chamfer (4 : ℝ) 4 1 0 ≠
      [chamfer_front_given 4 4 1 0, chamfer_back_given 4 4 1 0,
       (chamfer_left_given 4 4 1 0).reverse, (chamfer_right_given 4 4 1 0).reverse] := by
  intro h
  have h1 := congrArg (fun l => l[1]?) h
  norm_num [generate_chamfer, chamfer_front_given, chamfer_back_given,
    chamfer_left_given, chamfer_right_given, Prod.ext_iff] at h1

/-- C7 (amended): `generate_chamfer` yields exactly four trapezoidal faces
connecting the outer rectangle at `z = height` to the inset rectangle at
`z = height - thickness`; the front (`y = -length/2`) and right
(`x = +width/2`) faces are emitted in their given point order, while the
back (`y = +length/2`) and left (`x = -width/2`) faces are emitted
point-reversed.  Every emitted point sits on one of the two `z` planes. -/
theorem C7_chamfer_ring (width length thickness height : ℝ) :
    generate_chamfer width length thickness height =
      [chamfer_front_given width length thickness height,
       (chamfer_back_given width length thickness height).reverse,
       (chamfer_left_given width length thickness height).reverse,
       chamfer_right_given width length thickness height] ∧
    ∀ f ∈ generate_chamfer width length thickness height, f.length = 4 ∧
      ∀ p ∈ f, p.2.2 = height ∨ p.2.2 = height - thickness := by
  constructor
  · simp [generate_chamfer, chamfer_front_given, chamfer_back_given,
      chamfer_left_given, chamfer_right_given]
  · intro f hf
    simp only [generate_chamfer, List.mem_cons, List.not_mem_nil, or_false] at hf
    rcases hf with h | h | h | h <;> subst h <;>
      refine ⟨by simp, ?_⟩ <;> intro p hp <;>
      simp only [List.mem_reverse, List.mem_cons, List.not_mem_nil, or_false] at hp <;>
      rcases hp with h | h | h | h <;> subst h <;> simp

/-! ### Claim C8: every lid point stays clear of the hole -/

theorem pairwise_mem {β : Type} {l : List β} {ab : β × β} (h : ab ∈ pairwise l) :
    ab.1 ∈ l ∧ ab.2 ∈ l := by
  obtain ⟨a, b⟩ := ab
  have h2 := List.of_mem_zip h
  exact ⟨h2.1, List.mem_of_mem_tail h2.2⟩

theorem triplewise_mem {β : Type} {l : List β} {t : β × β × β} (h : t ∈ triplewise l) :
    t.1 ∈ l ∧ t.2.1 ∈ l ∧ t.2.2 ∈ l := by
  obtain ⟨a, b, c⟩ := t
  have h2 := List.of_mem_zip h
  have h3 := List.of_mem_zip h2.2
  exact ⟨h2.1, List.mem_of_mem_tail h3.1,
    List.mem_of_mem_tail (List.mem_of_mem_tail h3.2)⟩

theorem alternate_mem {β : Type} {L : List (β × β × β)} {invert : Bool} {f : List β}
    (hf : f ∈ alternate invert L) :
    ∃ t ∈ L, f = [t.2.2, t.2.1, t.1] ∨ f = [t.1, t.2.1, t.2.2] := by
  induction L generalizing invert with
  | nil => simp [alternate] at hf
  | cons hd tl ih =>
      rw [alternate] at hf
      rcases List.mem_cons.mp hf with hhd | htl
      · refine ⟨hd, List.mem_cons_self _ _, ?_⟩
        cases invert
        · right
          simpa using hhd
        · left
          simpa using hhd
      · obtain ⟨t, ht, hor⟩ := ih htl
        exact ⟨t, List.mem_cons_of_mem _ ht, hor⟩

theorem transform_mem {β γ : Type} {src : List (List β)} {t : β → γ} {inverting : Bool}
    {f : List γ} {p : γ} (hf : f ∈ transform src t inverting) (hp : p ∈ f) :
    ∃ f0 ∈ src, ∃ p0 ∈ f0, p = t p0 := by
  simp only [transform, List.mem_map] at hf
  obtain ⟨f0, hf0, rfl⟩ := hf
  have hp2 : p ∈ f0.map t := by
    cases inverting
    · simpa using hp
    · simp only [if_true] at hp
      exact List.mem_reverse.mp (by simpa using hp)
  obtain ⟨p0, hp0, rfl⟩ := List.mem_map.mp hp2
  exact ⟨f0, hf0, p0, hp0, rfl⟩

theorem corner_far (full : Bool) :
    ∀ q ∈ generate_corner 23 full, q.1 ^ 2 + q.2 ^ 2 = 529 ∧ |q.1| ≤ 23 ∧ |q.2| ≤ 23 := by
  intro q hq
  simp only [generate_corner, List.mem_map] at hq
  obtain ⟨i, _, rfl⟩ := hq
  dsimp only
  set θ : ℝ := ((i : ℝ) / ((if full then 30 * 4 else 30 : ℕ) : ℝ)) *
    (if full then 2 * Real.pi else Real.pi / 2) with hθ
  refine ⟨?_, ?_, ?_⟩
  · have hsc := Real.sin_sq_add_cos_sq θ
    nlinarith [hsc]
  · rw [show -Real.sin θ * 23 = Real.sin θ * (-23) by ring, abs_mul]
    have := Real.abs_sin_le_one θ
    rw [show |(-23 : ℝ)| = 23 by norm_num]
    nlinarith [abs_nonneg (Real.sin θ)]
  · rw [show -Real.cos θ * 23 = Real.cos θ * (-23) by ring, abs_mul]
    have := Real.abs_cos_le_one θ
    rw [show |(-23 : ℝ)| = 23 by norm_num]
    nlinarith [abs_nonneg (Real.cos θ)]

theorem corner_with_hole_far {w l : ℝ} (hw1 : 46 ≤ w) (hw2 : w ≤ 100)
    (hl1 : 46 ≤ l) (hl2 : l ≤ 100) :
    ∀ f ∈ generate_corner_with_hole w l 23, ∀ p ∈ f, far_point p := by
  have hpath : ∀ r ∈ ((0 : ℝ), -(l * (1/2)), (0 : ℝ)) ::
      ((generate_corner 23 false).map (fun q => (q.1, q.2, (0 : ℝ))) ++
        [(-(w * (1/2)), 0, 0)]), far_point r := by
    intro r hr
    rcases List.mem_cons.mp hr with h0 | hr2
    · rw [h0, far_point]
      refine ⟨by dsimp only; nlinarith, by dsimp only; norm_num, ?_⟩
      dsimp only
      rw [abs_le]
      constructor <;> linarith
    · rcases List.mem_append.mp hr2 with hcirc | hlast
      · obtain ⟨q, hq, rfl⟩ := List.mem_map.mp hcirc
        obtain ⟨hsq, hx, hy⟩ := corner_far false q hq
        exact ⟨by dsimp only; nlinarith, by dsimp only; linarith,
          by dsimp only; linarith⟩
      · simp only [List.mem_singleton] at hlast
        rw [hlast, far_point]
        refine ⟨by dsimp only; nlinarith, ?_, by dsimp only; norm_num⟩
        dsimp only
        rw [abs_le]
        constructor <;> linarith
  intro f hf p hp
  simp only [generate_corner_with_hole, List.mem_map] at hf
  obtain ⟨ab, hab, rfl⟩ := hf
  obtain ⟨ha, hb⟩ := pairwise_mem hab
  rcases List.mem_cons.mp hp with h0 | hp2
  · rw [h0, far_point]
    refine ⟨by dsimp only; nlinarith, ?_, ?_⟩ <;>
      · dsimp only
        rw [abs_le]
        constructor <;> linarith
  · rcases List.mem_cons.mp hp2 with h1 | hp3
    · rw [h1]
      exact hpath ab.1 ha
    · rcases List.mem_cons.mp hp3 with h2 | hnil
      · rw [h2]
        exact hpath ab.2 hb
      · simp at hnil

theorem far_neg_x {p : Point ℝ} (h : far_point p) : far_point (-p.1, p.2.1, p.2.2) := by
  obtain ⟨hsq, hx, hy⟩ := h
  refine ⟨by dsimp only; nlinarith, by dsimp only; rwa [abs_neg], by dsimp only; exact hy⟩

theorem far_neg_y {p : Point ℝ} (h : far_point p) : far_point (p.1, -p.2.1, p.2.2) := by
  obtain ⟨hsq, hx, hy⟩ := h
  refine ⟨by dsimp only; nlinarith, by dsimp only; exact hx, by dsimp only; rwa [abs_neg]⟩

theorem far_neg_xy {p : Point ℝ} (h : far_point p) : far_point (-p.1, -p.2.1, p.2.2) := by
  exact far_neg_y (far_neg_x h)

theorem far_shift_z {p : Point ℝ} (z : ℝ) (h : far_point p) :
    far_point (p.1, p.2.1, z) := h

theorem far_transform {src : List (List (Point ℝ))} {t : Point ℝ → Point ℝ}
    {inverting : Bool} (hsrc : ∀ f ∈ src, ∀ p ∈ f, far_point p)
    (ht : ∀ p, far_point p → far_point (t p)) :
    ∀ f ∈ transform src t inverting, ∀ p ∈ f, far_point p := by
  intro f hf p hp
  obtain ⟨f0, hf0, p0, hp0, rfl⟩ := transform_mem hf hp
  exact ht p0 (hsrc f0 hf0 p0 hp0)

theorem face_with_hole_far {w l : ℝ} (hw1 : 46 ≤ w) (hw2 : w ≤ 100)
    (hl1 : 46 ≤ l) (hl2 : l ≤ 100) :
    ∀ f ∈ generate_face_with_hole w l 23, ∀ p ∈ f, far_point p := by
  have base := corner_with_hole_far hw1 hw2 hl1 hl2
  intro f hf p hp
  rw [generate_face_with_hole] at hf
  rcases List.mem_append.mp hf with h1 | hrest
  · exact base f h1 p hp
  · rcases List.mem_append.mp hrest with h2 | hrest2
    · exact far_transform base (fun q hq => far_neg_x hq) f h2 p hp
    · rcases List.mem_append.mp hrest2 with h3 | h4
      · exact far_transform base (fun q hq => far_neg_y hq) f h3 p hp
      · exact far_transform base (fun q hq => far_neg_xy hq) f h4 p hp

theorem hole_edge_far : ∀ f ∈ generate_hole_edge 23 5, ∀ p ∈ f, far_point p := by
  have hpts : ∀ r ∈ (generate_corner 23 true).flatMap
      (fun q => [(q.1, q.2, (0 : ℝ)), (q.1, q.2, (5 : ℝ))]), far_point r := by
    intro r hr
    obtain ⟨q, hq, hmem⟩ := List.mem_flatMap.mp hr
    obtain ⟨hsq, hx, hy⟩ := corner_far true q hq
    rcases List.mem_cons.mp hmem with h0 | hmem2
    · rw [h0]
      exact ⟨by dsimp only; nlinarith, by dsimp only; linarith, by dsimp only; linarith⟩
    · rcases List.mem_cons.mp hmem2 with h1 | hnil
      · rw [h1]
        exact ⟨by dsimp only; nlinarith, by dsimp only; linarith, by dsimp only; linarith⟩
      · simp at hnil
  intro f hf p hp
  rw [generate_hole_edge] at hf
  obtain ⟨t, ht, hor⟩ := alternate_mem hf
  obtain ⟨h1, h2, h3⟩ := triplewise_mem ht
  rcases hor with rfl | rfl <;>
    · rcases List.mem_cons.mp hp with e | hp2
      · subst e
        first
          | exact hpts _ h3
          | exact hpts _ h1
      · rcases List.mem_cons.mp hp2 with e | hp3
        · subst e
          exact hpts _ h2
        · rcases List.mem_cons.mp hp3 with e | hnil
          · subst e
            first
              | exact hpts _ h1
              | exact hpts _ h3
          · simp at hnil

theorem generate_face_lid_far :
    ∀ f ∈ generate_face 100 100 5 (22 + 1) 60, ∀ p ∈ f, far_point p := by
  have h23 : (22 + 1 : ℝ) = 23 := by norm_num
  have h90 : (100 - 5 * 2 : ℝ) = 90 := by norm_num
  intro f hf p hp
  rw [generate_face] at hf
  rcases List.mem_append.mp hf with hcham | hrest
  · -- the chamfer ring's sixteen points
    simp only [generate_chamfer, List.mem_cons, List.mem_reverse,
      List.not_mem_nil, or_false] at hcham
    rcases hcham with rfl | rfl | rfl | rfl <;>
      · simp only [List.mem_reverse, List.mem_cons, List.not_mem_nil, or_false] at hp
        rcases hp with rfl | rfl | rfl | rfl <;>
          refine ⟨by dsimp only; norm_num, by dsimp only; rw [abs_le]; norm_num,
            by dsimp only; rw [abs_le]; norm_num⟩
  · rw [if_neg (by norm_num : ¬ (22 + 1 : ℝ) = 0)] at hrest
    have houter : ∀ g ∈ generate_face_with_hole 100 100 (22 + 1), ∀ q ∈ g, far_point q := by
      rw [h23]
      exact face_with_hole_far (by norm_num) (by norm_num) (by norm_num) (by norm_num)
    have hinner : ∀ g ∈ generate_face_with_hole (100 - 5 * 2) (100 - 5 * 2) (22 + 1),
        ∀ q ∈ g, far_point q := by
      rw [h23, h90]
      exact face_with_hole_far (by norm_num) (by norm_num) (by norm_num) (by norm_num)
    have hedge : ∀ g ∈ generate_hole_edge (22 + 1) 5, ∀ q ∈ g, far_point q := by
      rw [h23]
      exact hole_edge_far
    rcases List.mem_append.mp hrest with h1 | hrest2
    · exact far_transform houter (fun q hq => far_shift_z _ hq) f h1 p hp
    · rcases List.mem_append.mp hrest2 with h2 | h3
      · exact far_transform hinner (fun q hq => far_shift_z _ hq) f h2 p hp
      · exact far_transform hedge (fun q hq => far_shift_z _ hq) f h3 p hp

theorem lid_faces_far : ∀ f ∈ lid_faces, ∀ p ∈ f, far_point p := by
  rw [lid_faces]
  exact far_transform generate_face_lid_far (fun q hq => hq)

/-! #### Provenance: every stored vertex is a quantized face point -/

theorem get_vertex_array_sub {m : Mesh α} {p : Point α} {v : Point α}
    (hv : v ∈ (m.get_vertex p).1.vertex_array) :
    v ∈ m.vertex_array ∨ v = quantizePoint p := by
  rcases get_vertex_array_ext m p with he | he <;> rw [he] at hv
  · exact Or.inl hv
  · rcases List.mem_append.mp hv with h1 | h2
    · exact Or.inl h1
    · exact Or.inr (List.mem_singleton.mp h2)

theorem add_face3_array_sub {m : Mesh α} {a b c : Point α} {v : Point α}
    (hv : v ∈ (m.add_face3 a b c).vertex_array) :
    v ∈ m.vertex_array ∨ v = quantizePoint a ∨ v = quantizePoint b ∨ v = quantizePoint c := by
  rw [add_face3_array] at hv
  rcases get_vertex_array_sub hv with hv2 | hq
  · rcases get_vertex_array_sub hv2 with hv3 | hq
    · rcases get_vertex_array_sub hv3 with hv4 | hq
      · exact Or.inl hv4
      · exact Or.inr (Or.inl hq)
    · exact Or.inr (Or.inr (Or.inl hq))
  · exact Or.inr (Or.inr (Or.inr hq))

theorem add_face_list_array_sub {m : Mesh α} {ps : List (Point α)} {v : Point α}
    (hv : v ∈ (m.add_face_list ps).vertex_array) :
    v ∈ m.vertex_array ∨ ∃ p ∈ ps, v = quantizePoint p := by
  rw [Mesh.add_face_list.eq_def] at hv
  split at hv
  · rw [Mesh.add_face] at hv
    rcases add_face3_array_sub hv with h | h | h | h
    · exact Or.inl h
    · exact Or.inr ⟨_, by simp, h⟩
    · exact Or.inr ⟨_, by simp, h⟩
    · exact Or.inr ⟨_, by simp, h⟩
  · rw [Mesh.add_face] at hv
    rcases add_face3_array_sub hv with h | h | h | h
    · rcases add_face3_array_sub h with h2 | h2 | h2 | h2
      · exact Or.inl h2
      · exact Or.inr ⟨_, by simp, h2⟩
      · exact Or.inr ⟨_, by simp, h2⟩
      · exact Or.inr ⟨_, by simp, h2⟩
    · exact Or.inr ⟨_, by simp, h⟩
    · exact Or.inr ⟨_, by simp, h⟩
    · exact Or.inr ⟨_, by simp, h⟩
  · exact Or.inl hv

theorem foldl_array_sub {faces : List (List (Point α))} {m : Mesh α} {v : Point α}
    (hv : v ∈ (faces.foldl Mesh.add_face_list m).vertex_array) :
    v ∈ m.vertex_array ∨ ∃ f ∈ faces, ∃ p ∈ f, v = quantizePoint p := by
  induction faces generalizing m with
  | nil => exact Or.inl hv
  | cons f rest ih =>
      rw [List.foldl_cons] at hv
      rcases ih hv with h | ⟨g, hg, q, hq, he⟩
      · rcases add_face_list_array_sub h with h2 | ⟨q, hq, he⟩
        · exact Or.inl h2
        · exact Or.inr ⟨f, List.mem_cons_self _ _, q, hq, he⟩
      · exact Or.inr ⟨g, List.mem_cons_of_mem _ hg, q, hq, he⟩

omit [DecidableEq α] in
theorem quantize_err (v : α) : |quantize v - v| ≤ 1 / 200 := by
  have h := round_half_even_dist (v * 100)
  rw [quantize]
  rw [show (round_half_even (v * 100) : α) / 100 - v
        = -((v * 100 - round_half_even (v * 100)) / 100) by ring, abs_neg, abs_div]
  rw [abs_of_pos (by norm_num : (0:α) < 100)]
  linarith

theorem sq_perturb (x e : ℝ) (he : |e| ≤ 1/200) (hx : |x| ≤ 50) :
    x ^ 2 - 1/2 ≤ (x + e) ^ 2 := by
  rw [abs_le] at he hx
  nlinarith [mul_nonneg (by linarith : (0:ℝ) ≤ x + 50) (by linarith : (0:ℝ) ≤ e + 1/200),
    mul_nonneg (by linarith : (0:ℝ) ≤ 50 - x) (by linarith : (0:ℝ) ≤ 1/200 - e),
    sq_nonneg e]

theorem far_point_quantized {p : Point ℝ} (h : far_point p) :
    144 ≤ (quantizePoint p).1 ^ 2 + (quantizePoint p).2.1 ^ 2 := by
  obtain ⟨hsq, hx, hy⟩ := h
  have ex := quantize_err p.1
  have ey := quantize_err p.2.1
  have h1 := sq_perturb p.1 (quantize p.1 - p.1) ex hx
  have h2 := sq_perturb p.2.1 (quantize p.2.1 - p.2.1) ey hy
  rw [show p.1 + (quantize p.1 - p.1) = quantize p.1 by ring] at h1
  rw [show p.2.1 + (quantize p.2.1 - p.2.1) = quantize p.2.1 by ring] at h2
  rw [quantizePoint]
  dsimp only
  linarith

/-- C8: no vertex stored by the lid generation (button 22, clearance 1,
default dimensions) lies within radius 12 of the panel axis at the hole's
`z`-plane `z = 60` — the squared distance to `(0, 0)` is at least
`12² = 144`.  (`generate_corner` is in fact called with radius
`button + clearance = 23`, so every stored vertex clears even radius 22.) -/
theorem C8_hole_clearance :
    ∀ v ∈ lid_mesh.vertex_array, v.2.2 = 60 → 144 ≤ v.1 ^ 2 + v.2.1 ^ 2 := by
  intro v hv _hz
  rw [lid_mesh] at hv
  rcases foldl_array_sub hv with h0 | ⟨f, hf, p, hp, rfl⟩
  · simp [Mesh.empty] at h0
  · exact far_point_quantized (lid_faces_far f hf p hp)

/-! #### A concrete stored vertex, for the witness -/

theorem get_vertex_array_mono {m : Mesh α} {v : Point α} (hv : v ∈ m.vertex_array)
    (p : Point α) : v ∈ (m.get_vertex p).1.vertex_array := by
  rcases get_vertex_array_ext m p with he | he <;> rw [he]
  · exact hv
  · exact List.mem_append_left _ hv

theorem add_face3_array_mono {m : Mesh α} {v : Point α} (hv : v ∈ m.vertex_array)
    (a b c : Point α) : v ∈ (m.add_face3 a b c).vertex_array := by
  rw [add_face3_array]
  exact get_vertex_array_mono (get_vertex_array_mono (get_vertex_array_mono hv a) b) c

theorem add_face_list_array_mono {m : Mesh α} {v : Point α} (hv : v ∈ m.vertex_array)
    (ps : List (Point α)) : v ∈ (m.add_face_list ps).vertex_array := by
  rw [Mesh.add_face_list.eq_def]
  split
  · rw [Mesh.add_face]
    exact add_face3_array_mono hv _ _ _
  · rw [Mesh.add_face]
    exact add_face3_array_mono (add_face3_array_mono hv _ _ _) _ _ _
  · exact hv

theorem foldl_array_mono {faces : List (List (Point α))} {m : Mesh α} {v : Point α}
    (hv : v ∈ m.vertex_array) :
    v ∈ (faces.foldl Mesh.add_face_list m).vertex_array := by
  induction faces generalizing m with
  | nil => exact hv
  | cons f rest ih =>
      rw [List.foldl_cons]
      exact ih (add_face_list_array_mono hv f)

theorem lid_faces_head? : lid_faces.head? =
    some [((-50 : ℝ), -50, 60), ((-45 : ℝ), -45, 55), ((45 : ℝ), -45, 55),
          ((50 : ℝ), -50, 60)] := by
  rw [lid_faces, generate_face, generate_chamfer, transform]
  simp only [List.cons_append, List.map_cons, List.head?_cons]
  norm_num [List.map_id']

theorem lid_faces_head : ∃ rest, lid_faces =
    [((-50 : ℝ), -50, 60), ((-45 : ℝ), -45, 55), ((45 : ℝ), -45, 55), ((50 : ℝ), -50, 60)]
      :: rest := by
  have h := lid_faces_head?
  cases hl : lid_faces with
  | nil => rw [hl] at h; exact absurd h (by simp)
  | cons x rest =>
      rw [hl] at h
      simp only [List.head?_cons, Option.some.injEq] at h
      exact ⟨rest, by rw [h]⟩

theorem v0_mem_lid : (((-50 : ℝ), -50, 60) : Point ℝ) ∈ lid_mesh.vertex_array := by
  obtain ⟨rest, hrest⟩ := lid_faces_head
  have hq : quantizePoint (((-50 : ℝ), -50, 60) : Point ℝ) = ((-50 : ℝ), -50, 60) := by
    norm_num [quantizePoint, quantize, round_half_even]
  rw [lid_mesh, hrest, List.foldl_cons]
  apply foldl_array_mono
  rw [Mesh.add_face_list, Mesh.add_face]
  apply add_face3_array_mono
  rw [add_face3_array]
  apply get_vertex_array_mono
  apply get_vertex_array_mono
  have harr : (Mesh.empty.get_vertex (((-50 : ℝ), -50, 60) : Point ℝ)).1.vertex_array
      = [((-50 : ℝ), -50, 60)] := by
    rw [Mesh.get_vertex, hq]
    rfl
  rw [harr]
  exact List.mem_singleton.mpr rfl

/-- Witness for C8 at the concrete stored vertex `(-50, -50, 60)`. -/
theorem C8_hole_clearance_witness :
    ((((-50 : ℝ), -50, 60) : Point ℝ) ∈ lid_mesh.vertex_array ∧
      (((-50 : ℝ), -50, 60) : Point ℝ).2.2 = 60) ∧
    144 ≤ (((-50 : ℝ), -50, 60) : Point ℝ).1 ^ 2 + (((-50 : ℝ), -50, 60) : Point ℝ).2.1 ^ 2 :=
  ⟨⟨v0_mem_lid, rfl⟩, C8_hole_clearance _ v0_mem_lid rfl⟩

end Gencase
